import Mathlib

/-!
Shallow embedding of the scoring logic of esg_panel_analyzer.py
(class ESGPanelAnalyzer and the per-file decision logic of main).
Text is modelled as the list of Unicode code points of a String,
mirroring Python str semantics.  The regex character classes are
modelled at ASCII precision: the digit class accepts the ASCII digits
0-9 and the whitespace class accepts the six ASCII whitespace
characters; every character occurring in the hard-coded vocabularies
and in the claims falls in this fragment, where the model agrees
exactly with the Python classes.
-/

/-- Model of the regex digit class restricted to ASCII digits. -/
def isAsciiDigit (c : Char) : Bool := '0' ≤ c && c ≤ '9'

/-- Model of the regex whitespace class restricted to ASCII whitespace. -/
def isPySpace (c : Char) : Bool :=
  c == ' ' || c == '\t' || c == '\n' || c == '\r' || c == '\x0b' || c == '\x0c'

/-- Boolean test that the second list is a leading segment of the first,
used to model matching a literal at a fixed position. -/
def startsWithL : List Char → List Char → Bool
  | _, [] => true
  | [], _ :: _ => false
  | a :: s, b :: t => a == b && startsWithL s t

/-- Boolean substring containment: the Python expression keyword in text
on the code-point lists.  The needle is the first argument. -/
def containsL (needle : List Char) : List Char → Bool
  | [] => startsWithL [] needle
  | c :: rest => startsWithL (c :: rest) needle || containsL needle rest

/-- Model of Python str.lower on the ASCII fragment: every character of
the vocabulary that has case at all is a Latin ASCII letter. -/
def pyLower (s : String) : String := String.mk (s.data.map Char.toLower)

/-- standards_keywords list of ESGPanelAnalyzer.__init__. -/
def standards_keywords : List String :=
  ["GRI", "Global Reporting Initiative",
   "SASB", "Sustainability Accounting Standards Board",
   "TCFD", "Task Force on Climate-Related Financial Disclosures",
   "ISSB", "International Sustainability Standards Board",
   "CSRD", "Corporate Sustainability Reporting Directive",
   "SDGs", "Sustainable Development Goals",
   "全球报告倡议", "可持续发展会计准则", "气候相关财务披露",
   "国际可持续发展准则", "欧盟企业可持续发展报告指令", "上市公司社会责任指引"]

/-- assurance_keywords list of ESGPanelAnalyzer.__init__ (the literal
duplicate entry of the source is kept). -/
def assurance_keywords : List String :=
  ["第三方鉴证", "独立验证", "外部审计", "独立保证", "独立鉴证报告",
   "第三方鉴证", "独立核验", "外部鉴证", "外部核验", "assured by",
   "verified by", "独立审计师报告", "assurance", "third-party verification",
   "independent audit"]

/-- quantitative_units list of ESGPanelAnalyzer.__init__. -/
def quantitative_units : List String := ["吨", "%", "千瓦时", "立方米", "小时", "人次", "元"]

/-- kpi_keywords list of ESGPanelAnalyzer.__init__. -/
def kpi_keywords : List String :=
  ["关键绩效指标", "环境绩效数据", "社会绩效数据", "可持续发展表现",
   "ESG 数据", "绩效指标一览", "核心指标", "KPI"]

/-- check_standards_compliance: lower-case the text, return 1 when some
lower-cased standards keyword occurs as a substring, else 0. -/
def check_standards_compliance (text : String) : Nat :=
  if standards_keywords.any (fun kw => containsL (pyLower kw).data (pyLower text).data)
  then 1 else 0

/-- check_third_party_assurance: same algorithm against assurance_keywords. -/
def check_third_party_assurance (text : String) : Nat :=
  if assurance_keywords.any (fun kw => containsL (pyLower kw).data (pyLower text).data)
  then 1 else 0

/-! The backtracking matcher for the rule-1 regex of
check_quantitative_metrics.  The pattern is one or more digits,
an optional group of a dot followed by one or more digits, optional
whitespace, then the literal unit, searched at every position. -/

/-- Matcher for the tail regex of optional whitespace then the unit literal. -/
def matchSpacesUnit (unit : List Char) : List Char → Bool
  | [] => startsWithL [] unit
  | c :: rest => startsWithL (c :: rest) unit || (isPySpace c && matchSpacesUnit unit rest)

/-- Matcher for the tail regex after at least one fractional digit:
zero or more further digits, optional whitespace, then the unit. -/
def matchFracTail (unit : List Char) : List Char → Bool
  | [] => matchSpacesUnit unit []
  | c :: rest => matchSpacesUnit unit (c :: rest) || (isAsciiDigit c && matchFracTail unit rest)

/-- Matcher for the optional dot-digits group followed by whitespace and the unit. -/
def matchOptFrac (unit : List Char) (s : List Char) : Bool :=
  matchSpacesUnit unit s ||
    match s with
    | c :: d :: rest => c == '.' && isAsciiDigit d && matchFracTail unit rest
    | _ => false

/-- Matcher for the tail regex after at least one integer digit:
zero or more further digits, the optional fraction, whitespace, the unit. -/
def matchAfterD (unit : List Char) : List Char → Bool
  | [] => matchOptFrac unit []
  | c :: rest => matchOptFrac unit (c :: rest) || (isAsciiDigit c && matchAfterD unit rest)

/-- Unanchored search for the whole number-plus-unit pattern, as re.search does. -/
def searchNumUnit (unit : List Char) : List Char → Bool
  | [] => false
  | c :: rest => (isAsciiDigit c && matchAfterD unit rest) || searchNumUnit unit rest

/-- Model of the rule-2 regex branch matching a newline character
immediately followed by the keyword, anywhere in the text. -/
def kpiAfterNewline (kw : List Char) : List Char → Bool
  | [] => false
  | c :: rest => (c == '\n' && startsWithL rest kw) || kpiAfterNewline kw rest

/-- Model of the whole rule-2 regex for one keyword under re.MULTILINE:
the keyword at the start of the text, or right after a newline. -/
def kpiLineMatch (kw : List Char) (s : List Char) : Bool :=
  startsWithL s kw || kpiAfterNewline kw s

/-- check_quantitative_metrics: rule 1 searches a number followed by
optional whitespace and a unit; rule 2 searches a KPI keyword anchored
at the start of a line; first match returns 1, otherwise 0. -/
def check_quantitative_metrics (text : String) : Nat :=
  if quantitative_units.any (fun u => searchNumUnit u.data text.data) then 1
  else if kpi_keywords.any (fun kw => kpiLineMatch kw.data text.data) then 1
  else 0

/-- The dictionary returned by analyze_report on success. -/
structure ScoreResult where
  standards_score : Nat
  assurance_score : Nat
  metrics_score : Nat
  total_score : Nat
deriving DecidableEq

/-- analyze_report on the extracted text: empty text (Python falsiness of
a string) yields None, otherwise the three checks and their sum. -/
def analyze_report (text : String) : Option ScoreResult :=
  if text = "" then none
  else
    some { standards_score := check_standards_compliance text
           assurance_score := check_third_party_assurance text
           metrics_score := check_quantitative_metrics text
           total_score := check_standards_compliance text + check_third_party_assurance text +
             check_quantitative_metrics text }

/-! Filename parsing: re.match of the pattern of six digits, a dash,
four digits, a dash, a lazy dot-star group, and the literal dot txt.
re.match anchors at the start only; the dot class excludes the newline;
the lazy group takes the shortest span. -/

/-- The literal dot txt tail of the filename pattern. -/
def txtSuffix : List Char := ['.', 't', 'x', 't']

/-- Consume exactly k digit characters, returning them and the remainder. -/
def takeDigits : Nat → List Char → Option (List Char × List Char)
  | 0, s => some ([], s)
  | _ + 1, [] => none
  | k + 1, c :: s =>
    if isAsciiDigit c then (takeDigits k s).map (fun p => (c :: p.1, p.2)) else none

/-- Consume a literal dash character. -/
def expectDash : List Char → Option (List Char)
  | [] => none
  | c :: rest => if c = '-' then some rest else none

/-- Lazy search for the group before the literal dot txt: the shortest
newline-free span followed by the literal; the newline stops the search
because the dot class does not match it. -/
def findNameTxt : List Char → Option (List Char)
  | [] => none
  | c :: rest =>
    if startsWithL (c :: rest) txtSuffix then some []
    else if c = '\n' then none
    else (findNameTxt rest).map (fun n => c :: n)

/-- Python int on a list of ASCII digit characters. -/
def digitsToNat (l : List Char) : Nat := l.foldl (fun acc c => 10 * acc + (c.toNat - 48)) 0

/-- parse_filename: match the pattern against the start of the filename
and return (stock code, year as integer, company name), or the all-absent
sentinel when the match fails. -/
def parse_filename (filename : String) : Option (String × Nat × String) :=
  match takeDigits 6 filename.data with
  | none => none
  | some (code, r1) =>
    match expectDash r1 with
    | none => none
    | some r2 =>
      match takeDigits 4 r2 with
      | none => none
      | some (yr, r3) =>
        match expectDash r3 with
        | none => none
        | some r4 =>
          match findNameTxt r4 with
          | none => none
          | some nm => some (String.mk code, digitsToNat yr, String.mk nm)

/-- One row of the results table built by main. -/
structure PanelRow where
  stock_code : String
  company_name : String
  year : Nat
  standards_score : Nat
  assurance_score : Nat
  metrics_score : Nat
  total_score : Nat
deriving DecidableEq

/-- Per-file outcome of the batch loop of main: either a scored row or a
failure record with the reason string. -/
inductive BatchOutcome
  | scored : PanelRow → BatchOutcome
  | failed : String → BatchOutcome
deriving DecidableEq

/-- The failure reason recorded when the year is missing or out of range. -/
def year_reason : String := "年份不在2015-2023范围内"

/-- The failure reason recorded when analyze_report returns the absent sentinel. -/
def analysis_failed_reason : String := "分析失败"

/-- The body of the batch loop of main for one file, on the extracted
text: parse the filename; when the year is truthy and within 2015-2023,
analyze, recording a row on success and an analysis failure otherwise;
any other year (including an unparsable filename) is recorded as
filtered out with the year reason. -/
def process_file (filename text : String) : BatchOutcome :=
  match parse_filename filename with
  | some (code, year, name) =>
    if year ≠ 0 ∧ 2015 ≤ year ∧ year ≤ 2023 then
      match analyze_report text with
      | some s =>
        BatchOutcome.scored
          ⟨code, name, year, s.standards_score, s.assurance_score, s.metrics_score, s.total_score⟩
      | none => BatchOutcome.failed analysis_failed_reason
    else BatchOutcome.failed year_reason
  | none => BatchOutcome.failed year_reason

/-! Declarative predicates used to state the claims, and characterization
lemmas connecting them to the executable matchers. -/

/-- Every character of the list is an ASCII digit. -/
def AllDigits (l : List Char) : Prop := ∀ c ∈ l, isAsciiDigit c = true

/-- Every character of the list is whitespace. -/
def AllSpaces (l : List Char) : Prop := ∀ c ∈ l, isPySpace c = true

instance (l : List Char) : Decidable (AllDigits l) :=
  inferInstanceAs (Decidable (∀ c ∈ l, isAsciiDigit c = true))

instance (l : List Char) : Decidable (AllSpaces l) :=
  inferInstanceAs (Decidable (∀ c ∈ l, isPySpace c = true))

/-- The shape of the optional fractional group: empty, or a dot followed
by at least one digit. -/
def FracOpt (fr : List Char) : Prop :=
  fr = [] ∨ ∃ fds, fr = '.' :: fds ∧ fds ≠ [] ∧ AllDigits fds

/-- The text contains, somewhere, a nonempty run of digits, an optional
dot-digits group, possibly empty whitespace, then the unit literal. -/
def NumUnitPattern (unit s : List Char) : Prop :=
  ∃ p ds fr sp u, s = p ++ (ds ++ (fr ++ (sp ++ (unit ++ u)))) ∧
    ds ≠ [] ∧ AllDigits ds ∧ FracOpt fr ∧ AllSpaces sp

/-- The keyword occurs at the very start of the text or immediately after
a newline character. -/
def LineAnchored (kw s : List Char) : Prop :=
  (∃ u, s = kw ++ u) ∨ ∃ p q, s = p ++ '\n' :: (kw ++ q)

/-- The filename begins with six digits, a dash, four digits, a dash,
then a newline-free span followed by the literal dot txt; arbitrary
characters may follow. -/
def ShapeAtFront (filename : String) : Prop :=
  ∃ code yr nm rest,
    filename.data = code ++ '-' :: (yr ++ '-' :: (nm ++ (txtSuffix ++ rest))) ∧
    code.length = 6 ∧ AllDigits code ∧ yr.length = 4 ∧ AllDigits yr ∧ '\n' ∉ nm

theorem startsWithL_iff (t : List Char) : ∀ s, startsWithL s t = true ↔ ∃ u, s = t ++ u := by
  induction t with
  | nil => intro s; simp [startsWithL]
  | cons b bs ih =>
    intro s
    cases s with
    | nil => simp [startsWithL]
    | cons a as =>
      rw [startsWithL, Bool.and_eq_true, beq_iff_eq, ih]
      constructor
      · rintro ⟨rfl, u, rfl⟩; exact ⟨u, rfl⟩
      · rintro ⟨u, h⟩
        rw [List.cons_append] at h
        injection h with h1 h2
        exact ⟨h1, u, h2⟩

theorem containsL_iff (needle : List Char) :
    ∀ hay, containsL needle hay = true ↔ ∃ p q, hay = p ++ needle ++ q := by
  intro hay
  induction hay with
  | nil =>
    rw [containsL, startsWithL_iff]
    constructor
    · rintro ⟨u, h⟩; exact ⟨[], u, h⟩
    · rintro ⟨p, q, h⟩
      rcases List.append_eq_nil.mp h.symm with ⟨hpn, hq⟩
      rcases List.append_eq_nil.mp hpn with ⟨hp, hn⟩
      exact ⟨[], by rw [hn]; rfl⟩
  | cons c rest ih =>
    rw [containsL, Bool.or_eq_true, startsWithL_iff, ih]
    constructor
    · rintro (⟨u, h⟩ | ⟨p, q, h⟩)
      · exact ⟨[], u, by simpa using h⟩
      · exact ⟨c :: p, q, by simp [h]⟩
    · rintro ⟨p, q, h⟩
      cases p with
      | nil => exact Or.inl ⟨q, by simpa using h⟩
      | cons x xs =>
        rw [List.cons_append, List.cons_append] at h
        injection h with h1 h2
        exact Or.inr ⟨xs, q, h2⟩

theorem kpiAfterNewline_iff (kw : List Char) :
    ∀ s, kpiAfterNewline kw s = true ↔ ∃ p q, s = p ++ '\n' :: (kw ++ q) := by
  intro s
  induction s with
  | nil =>
    rw [kpiAfterNewline]
    constructor
    · intro h; exact absurd h Bool.false_ne_true
    · rintro ⟨p, q, h⟩
      exact absurd h.symm (by simp)
  | cons c rest ih =>
    rw [kpiAfterNewline, Bool.or_eq_true, Bool.and_eq_true, beq_iff_eq, startsWithL_iff, ih]
    constructor
    · rintro (⟨rfl, u, rfl⟩ | ⟨p, q, rfl⟩)
      · exact ⟨[], u, rfl⟩
      · exact ⟨c :: p, q, rfl⟩
    · rintro ⟨p, q, h⟩
      cases p with
      | nil =>
        rw [List.nil_append] at h
        injection h with h1 h2
        exact Or.inl ⟨h1, q, h2⟩
      | cons x xs =>
        rw [List.cons_append] at h
        injection h with h1 h2
        exact Or.inr ⟨xs, q, h2⟩

theorem kpiLineMatch_iff (kw s : List Char) :
    kpiLineMatch kw s = true ↔ LineAnchored kw s := by
  rw [kpiLineMatch, Bool.or_eq_true, startsWithL_iff, kpiAfterNewline_iff]
  exact Iff.rfl

theorem allDigits_nil : AllDigits [] := by intro c hc; cases hc

theorem allSpaces_nil : AllSpaces [] := by intro c hc; cases hc

/-- Generic characterization of the recursion shape shared by the three
star-matchers: a matcher that either fires its base matcher at the
current position or consumes one character satisfying a class and
recurses matches exactly a class-run followed by a base match. -/
theorem scanStar_iff (pred : Char → Bool) (base : List Char → Bool) (P : List Char → Prop)
    (hbase : ∀ s, base s = true ↔ P s) (f : List Char → Bool)
    (hf0 : f [] = base [])
    (hfc : ∀ c rest, f (c :: rest) = (base (c :: rest) || (pred c && f rest))) :
    ∀ s, f s = true ↔ ∃ run t, s = run ++ t ∧ (∀ c ∈ run, pred c = true) ∧ P t := by
  intro s
  induction s with
  | nil =>
    rw [hf0, hbase]
    constructor
    · intro h
      refine ⟨[], [], rfl, ?_, h⟩
      intro c hc; cases hc
    · rintro ⟨run, t, h, hrun, hP⟩
      rcases List.append_eq_nil.mp h.symm with ⟨hr, ht⟩
      rw [ht] at hP; exact hP
  | cons c rest ih =>
    rw [hfc, Bool.or_eq_true, Bool.and_eq_true, hbase, ih]
    constructor
    · rintro (h | ⟨hc, run, t, h, hrun, hP⟩)
      · refine ⟨[], c :: rest, rfl, ?_, h⟩
        intro d hd; cases hd
      · refine ⟨c :: run, t, by rw [List.cons_append, h], ?_, hP⟩
        intro d hd
        rcases List.mem_cons.mp hd with rfl | hd
        · exact hc
        · exact hrun d hd
    · rintro ⟨run, t, h, hrun, hP⟩
      cases run with
      | nil => rw [List.nil_append] at h; rw [h]; exact Or.inl hP
      | cons x xs =>
        rw [List.cons_append] at h
        injection h with h1 h2
        subst h1
        exact Or.inr ⟨hrun c (List.mem_cons_self c xs),
          xs, t, h2, fun d hd => hrun d (List.mem_cons_of_mem c hd), hP⟩

theorem matchSpacesUnit_iff (unit : List Char) :
    ∀ s, matchSpacesUnit unit s = true ↔
      ∃ sp u, s = sp ++ (unit ++ u) ∧ AllSpaces sp := by
  intro s
  rw [scanStar_iff isPySpace (fun t => startsWithL t unit) (fun t => ∃ u, t = unit ++ u)
    (fun t => startsWithL_iff unit t) (matchSpacesUnit unit) rfl
    (fun c rest => rfl) s]
  constructor
  · rintro ⟨run, t, rfl, hrun, u, rfl⟩; exact ⟨run, u, rfl, hrun⟩
  · rintro ⟨sp, u, rfl, hsp⟩; exact ⟨sp, unit ++ u, rfl, hsp, u, rfl⟩

theorem matchFracTail_iff (unit : List Char) :
    ∀ s, matchFracTail unit s = true ↔
      ∃ ds sp u, s = ds ++ (sp ++ (unit ++ u)) ∧ AllDigits ds ∧ AllSpaces sp := by
  intro s
  rw [scanStar_iff isAsciiDigit (matchSpacesUnit unit)
    (fun t => ∃ sp u, t = sp ++ (unit ++ u) ∧ AllSpaces sp)
    (matchSpacesUnit_iff unit) (matchFracTail unit) rfl (fun c rest => rfl) s]
  constructor
  · rintro ⟨run, t, rfl, hrun, sp, u, rfl, hsp⟩; exact ⟨run, sp, u, rfl, hrun, hsp⟩
  · rintro ⟨ds, sp, u, rfl, hds, hsp⟩; exact ⟨ds, sp ++ (unit ++ u), rfl, hds, sp, u, rfl, hsp⟩

theorem matchOptFrac_of_spaces (unit s : List Char) (h : matchSpacesUnit unit s = true) :
    matchOptFrac unit s = true := by
  cases s with
  | nil =>
    show (matchSpacesUnit unit [] || false) = true
    rw [h]; rfl
  | cons c s2 =>
    cases s2 with
    | nil =>
      show (matchSpacesUnit unit [c] || false) = true
      rw [h]; rfl
    | cons d rest =>
      show (matchSpacesUnit unit (c :: d :: rest) ||
        (c == '.' && isAsciiDigit d && matchFracTail unit rest)) = true
      rw [h]; rfl

theorem matchOptFrac_iff (unit s : List Char) :
    matchOptFrac unit s = true ↔
      ∃ fr sp u, s = fr ++ (sp ++ (unit ++ u)) ∧ FracOpt fr ∧ AllSpaces sp := by
  constructor
  · intro h
    cases s with
    | nil =>
      have h0 : (matchSpacesUnit unit [] || false) = true := h
      rw [Bool.or_eq_true] at h0
      rcases h0 with h0 | h0
      · rcases (matchSpacesUnit_iff unit _).mp h0 with ⟨sp, u, heq, hsp⟩
        exact ⟨[], sp, u, heq, Or.inl rfl, hsp⟩
      · exact absurd h0 Bool.false_ne_true
    | cons c s2 =>
      cases s2 with
      | nil =>
        have h0 : (matchSpacesUnit unit [c] || false) = true := h
        rw [Bool.or_eq_true] at h0
        rcases h0 with h0 | h0
        · rcases (matchSpacesUnit_iff unit _).mp h0 with ⟨sp, u, heq, hsp⟩
          exact ⟨[], sp, u, heq, Or.inl rfl, hsp⟩
        · exact absurd h0 Bool.false_ne_true
      | cons d rest =>
        have h0 : (matchSpacesUnit unit (c :: d :: rest) ||
            (c == '.' && isAsciiDigit d && matchFracTail unit rest)) = true := h
        rw [Bool.or_eq_true] at h0
        rcases h0 with h0 | h0
        · rcases (matchSpacesUnit_iff unit _).mp h0 with ⟨sp, u, heq, hsp⟩
          exact ⟨[], sp, u, heq, Or.inl rfl, hsp⟩
        · rw [Bool.and_eq_true, Bool.and_eq_true, beq_iff_eq] at h0
          rcases h0 with ⟨⟨rfl, hd⟩, htail⟩
          rcases (matchFracTail_iff unit rest).mp htail with ⟨ds, sp, u, rfl, hds, hsp⟩
          refine ⟨'.' :: d :: ds, sp, u, by simp, ?_, hsp⟩
          refine Or.inr ⟨d :: ds, rfl, by simp, ?_⟩
          intro x hx
          rcases List.mem_cons.mp hx with rfl | hx
          · exact hd
          · exact hds x hx
  · rintro ⟨fr, sp, u, rfl, hfr, hsp⟩
    rcases hfr with rfl | ⟨fds, rfl, hne, hfds⟩
    · exact matchOptFrac_of_spaces unit _ ((matchSpacesUnit_iff unit _).mpr ⟨sp, u, rfl, hsp⟩)
    · cases fds with
      | nil => exact absurd rfl hne
      | cons d ds =>
        have hb : matchFracTail unit (ds ++ (sp ++ (unit ++ u))) = true :=
          (matchFracTail_iff unit _).mpr
            ⟨ds, sp, u, rfl, fun x hx => hfds x (List.mem_cons_of_mem d hx), hsp⟩
        have hd : isAsciiDigit d = true := hfds d (List.mem_cons_self d ds)
        show (matchSpacesUnit unit (('.' :: d :: ds) ++ (sp ++ (unit ++ u))) ||
          ('.' == '.' && isAsciiDigit d && matchFracTail unit (ds ++ (sp ++ (unit ++ u))))) = true
        rw [hb, hd]
        rw [Bool.or_eq_true]
        right
        rfl

theorem matchAfterD_iff (unit : List Char) :
    ∀ s, matchAfterD unit s = true ↔
      ∃ ds fr sp u, s = ds ++ (fr ++ (sp ++ (unit ++ u))) ∧
        AllDigits ds ∧ FracOpt fr ∧ AllSpaces sp := by
  intro s
  rw [scanStar_iff isAsciiDigit (matchOptFrac unit)
    (fun t => ∃ fr sp u, t = fr ++ (sp ++ (unit ++ u)) ∧ FracOpt fr ∧ AllSpaces sp)
    (matchOptFrac_iff unit) (matchAfterD unit) rfl (fun c rest => rfl) s]
  constructor
  · rintro ⟨run, t, rfl, hrun, fr, sp, u, rfl, hfr, hsp⟩
    exact ⟨run, fr, sp, u, rfl, hrun, hfr, hsp⟩
  · rintro ⟨ds, fr, sp, u, rfl, hds, hfr, hsp⟩
    exact ⟨ds, fr ++ (sp ++ (unit ++ u)), rfl, hds, fr, sp, u, rfl, hfr, hsp⟩

theorem searchNumUnit_iff (unit : List Char) :
    ∀ s, searchNumUnit unit s = true ↔ NumUnitPattern unit s := by
  intro s
  induction s with
  | nil =>
    rw [searchNumUnit]
    constructor
    · intro h; exact absurd h Bool.false_ne_true
    · rintro ⟨p, ds, fr, sp, u, h, hne, hds, hfr, hsp⟩
      rcases List.append_eq_nil.mp h.symm with ⟨hp, hrest⟩
      rcases List.append_eq_nil.mp hrest with ⟨hd, _⟩
      exact absurd hd hne
  | cons c rest ih =>
    rw [searchNumUnit, Bool.or_eq_true, Bool.and_eq_true, ih]
    constructor
    · rintro (⟨hc, h⟩ | ⟨p, ds, fr, sp, u, rfl, hne, hds, hfr, hsp⟩)
      · rcases (matchAfterD_iff unit rest).mp h with ⟨ds, fr, sp, u, rfl, hds, hfr, hsp⟩
        refine ⟨[], c :: ds, fr, sp, u, by simp, by simp, ?_, hfr, hsp⟩
        intro d hd
        rcases List.mem_cons.mp hd with rfl | hd
        · exact hc
        · exact hds d hd
      · exact ⟨c :: p, ds, fr, sp, u, by simp, hne, hds, hfr, hsp⟩
    · rintro ⟨p, ds, fr, sp, u, h, hne, hds, hfr, hsp⟩
      cases p with
      | nil =>
        rw [List.nil_append] at h
        cases ds with
        | nil => exact absurd rfl hne
        | cons d ds =>
          rw [List.cons_append] at h
          injection h with h1 h2
          subst h1
          refine Or.inl ⟨hds c (List.mem_cons_self c ds), ?_⟩
          exact (matchAfterD_iff unit rest).mpr
            ⟨ds, fr, sp, u, h2, fun x hx => hds x (List.mem_cons_of_mem c hx), hfr, hsp⟩
      | cons x xs =>
        rw [List.cons_append] at h
        injection h with h1 h2
        subst h1
        exact Or.inr ⟨xs, ds, fr, sp, u, h2, hne, hds, hfr, hsp⟩

theorem anyContains_iff (kws : List String) (text : String) :
    (kws.any fun kw => containsL (pyLower kw).data (pyLower text).data) = true ↔
      ∃ kw ∈ kws, ∃ p q, (pyLower text).data = p ++ (pyLower kw).data ++ q := by
  rw [List.any_eq_true]
  constructor
  · rintro ⟨kw, hkw, h⟩
    exact ⟨kw, hkw, (containsL_iff _ _).mp h⟩
  · rintro ⟨kw, hkw, h⟩
    exact ⟨kw, hkw, (containsL_iff _ _).mpr h⟩

theorem keywordCheckEq (kws : List String) (text : String) :
    ((if kws.any (fun kw => containsL (pyLower kw).data (pyLower text).data) then (1 : Nat)
        else 0) = 1 ↔
      ∃ kw ∈ kws, ∃ p q, (pyLower text).data = p ++ (pyLower kw).data ++ q) ∧
    ((if kws.any (fun kw => containsL (pyLower kw).data (pyLower text).data) then (1 : Nat)
        else 0) = 0 ↔
      ¬ ∃ kw ∈ kws, ∃ p q, (pyLower text).data = p ++ (pyLower kw).data ++ q) := by
  by_cases hb : (kws.any fun kw => containsL (pyLower kw).data (pyLower text).data) = true
  · rw [if_pos hb]
    have hex := (anyContains_iff kws text).mp hb
    exact ⟨⟨fun _ => hex, fun _ => rfl⟩,
      ⟨fun h => absurd h (by decide), fun h => absurd hex h⟩⟩
  · rw [if_neg hb]
    have hnex : ¬ ∃ kw ∈ kws, ∃ p q, (pyLower text).data = p ++ (pyLower kw).data ++ q :=
      fun hex => hb ((anyContains_iff kws text).mpr hex)
    exact ⟨⟨fun h => absurd h (by decide), fun hex => absurd hex hnex⟩,
      ⟨fun _ => hnex, fun _ => rfl⟩⟩

theorem check_std_val (t : String) :
    check_standards_compliance t = 0 ∨ check_standards_compliance t = 1 := by
  rw [check_standards_compliance]
  split
  · exact Or.inr rfl
  · exact Or.inl rfl

theorem check_assur_val (t : String) :
    check_third_party_assurance t = 0 ∨ check_third_party_assurance t = 1 := by
  rw [check_third_party_assurance]
  split
  · exact Or.inr rfl
  · exact Or.inl rfl

theorem check_metrics_val (t : String) :
    check_quantitative_metrics t = 0 ∨ check_quantitative_metrics t = 1 := by
  rw [check_quantitative_metrics]
  split
  · exact Or.inr rfl
  · split
    · exact Or.inr rfl
    · exact Or.inl rfl

theorem metrics_one_iff (text : String) :
    check_quantitative_metrics text = 1 ↔
      (∃ u ∈ quantitative_units, NumUnitPattern u.data text.data) ∨
      ∃ kw ∈ kpi_keywords, LineAnchored kw.data text.data := by
  rw [check_quantitative_metrics]
  by_cases h1 : (quantitative_units.any fun u => searchNumUnit u.data text.data) = true
  · rw [if_pos h1]
    have hex : ∃ u ∈ quantitative_units, NumUnitPattern u.data text.data := by
      rcases List.any_eq_true.mp h1 with ⟨u, hu, hs⟩
      exact ⟨u, hu, (searchNumUnit_iff u.data text.data).mp hs⟩
    exact ⟨fun _ => Or.inl hex, fun _ => rfl⟩
  · rw [if_neg h1]
    by_cases h2 : (kpi_keywords.any fun kw => kpiLineMatch kw.data text.data) = true
    · rw [if_pos h2]
      have hex : ∃ kw ∈ kpi_keywords, LineAnchored kw.data text.data := by
        rcases List.any_eq_true.mp h2 with ⟨kw, hkw, hs⟩
        exact ⟨kw, hkw, (kpiLineMatch_iff kw.data text.data).mp hs⟩
      exact ⟨fun _ => Or.inr hex, fun _ => rfl⟩
    · rw [if_neg h2]
      constructor
      · intro h; exact absurd h (by decide)
      · rintro (⟨u, hu, hp⟩ | ⟨kw, hkw, hp⟩)
        · exact absurd (List.any_eq_true.mpr ⟨u, hu, (searchNumUnit_iff _ _).mpr hp⟩) h1
        · exact absurd (List.any_eq_true.mpr ⟨kw, hkw, (kpiLineMatch_iff _ _).mpr hp⟩) h2

theorem metrics_zero_iff (text : String) :
    check_quantitative_metrics text = 0 ↔
      ¬((∃ u ∈ quantitative_units, NumUnitPattern u.data text.data) ∨
        ∃ kw ∈ kpi_keywords, LineAnchored kw.data text.data) := by
  rw [← metrics_one_iff]
  rcases check_metrics_val text with h | h <;> simp [h]

theorem analyze_report_eq (text : String) (h : text ≠ "") :
    analyze_report text =
      some ⟨check_standards_compliance text, check_third_party_assurance text,
        check_quantitative_metrics text,
        check_standards_compliance text + check_third_party_assurance text +
          check_quantitative_metrics text⟩ := by
  rw [analyze_report, if_neg h]

/-- C1: check_standards_compliance returns 1 exactly when some standards
keyword, with both keyword and text case-folded, occurs as a substring of
the text, and 0 otherwise; check_third_party_assurance satisfies the same
characterization against the assurance keyword set, each result depending
only on its own keyword set. -/
theorem claim_keyword_checks (text : String) :
    (check_standards_compliance text = 1 ↔
      ∃ kw ∈ standards_keywords, ∃ p q, (pyLower text).data = p ++ (pyLower kw).data ++ q) ∧
    (check_standards_compliance text = 0 ↔
      ¬ ∃ kw ∈ standards_keywords, ∃ p q, (pyLower text).data = p ++ (pyLower kw).data ++ q) ∧
    (check_third_party_assurance text = 1 ↔
      ∃ kw ∈ assurance_keywords, ∃ p q, (pyLower text).data = p ++ (pyLower kw).data ++ q) ∧
    (check_third_party_assurance text = 0 ↔
      ¬ ∃ kw ∈ assurance_keywords, ∃ p q, (pyLower text).data = p ++ (pyLower kw).data ++ q) :=
  ⟨(keywordCheckEq standards_keywords text).1, (keywordCheckEq standards_keywords text).2,
    (keywordCheckEq assurance_keywords text).1, (keywordCheckEq assurance_keywords text).2⟩

/-- C2: analyze_report returns the absent sentinel on empty text, and on
nonempty text returns exactly the three check values and their sum, so an
empty document is distinguishable from one that legitimately scores 0. -/
theorem claim_analyze_report_empty :
    analyze_report "" = none ∧
    ∀ text, text ≠ "" →
      analyze_report text =
        some ⟨check_standards_compliance text, check_third_party_assurance text,
          check_quantitative_metrics text,
          check_standards_compliance text + check_third_party_assurance text +
            check_quantitative_metrics text⟩ :=
  ⟨by rw [analyze_report, if_pos rfl], fun text h => analyze_report_eq text h⟩

/-- Witness for C2: the nonempty-text case evaluated at a concrete text. -/
theorem claim_analyze_report_empty_witness :
    analyze_report "GRI" =
      some ⟨check_standards_compliance "GRI", check_third_party_assurance "GRI",
        check_quantitative_metrics "GRI",
        check_standards_compliance "GRI" + check_third_party_assurance "GRI" +
          check_quantitative_metrics "GRI"⟩ :=
  claim_analyze_report_empty.2 "GRI" (by decide)

/-- C5: for every nonempty text the result of analyze_report has its
total_score equal to the sum of the three binary sub-scores, each
sub-score is 0 or 1, and the total is at most 3. -/
theorem claim_total_score (text : String) (h : text ≠ "") :
    ∃ r, analyze_report text = some r ∧
      r.total_score = r.standards_score + r.assurance_score + r.metrics_score ∧
      (r.standards_score = 0 ∨ r.standards_score = 1) ∧
      (r.assurance_score = 0 ∨ r.assurance_score = 1) ∧
      (r.metrics_score = 0 ∨ r.metrics_score = 1) ∧ r.total_score ≤ 3 := by
  refine ⟨_, analyze_report_eq text h, rfl, check_std_val text, check_assur_val text,
    check_metrics_val text, ?_⟩
  rcases check_std_val text with h1 | h1 <;> rcases check_assur_val text with h2 | h2 <;>
    rcases check_metrics_val text with h3 | h3 <;> simp [h1, h2, h3]

/-- Witness for C5 at a concrete nonempty text. -/
theorem claim_total_score_witness :
    ∃ r, analyze_report "GRI assured by audit 50%" = some r ∧
      r.total_score = r.standards_score + r.assurance_score + r.metrics_score ∧
      (r.standards_score = 0 ∨ r.standards_score = 1) ∧
      (r.assurance_score = 0 ∨ r.assurance_score = 1) ∧
      (r.metrics_score = 0 ∨ r.metrics_score = 1) ∧ r.total_score ≤ 3 :=
  claim_total_score "GRI assured by audit 50%" (by decide)

/-- C3: check_quantitative_metrics returns 1 for every text containing,
for some unit token, a run of digits optionally followed by a decimal
point and more digits, then possibly empty whitespace, then that unit
token matched case-sensitively; in particular the sample text with a
number immediately followed by a unit yields 1. -/
theorem claim_number_unit_rule :
    (∀ text unit, unit ∈ quantitative_units → NumUnitPattern unit.data text.data →
      check_quantitative_metrics text = 1) ∧
    check_quantitative_metrics "排放量120吨" = 1 := by
  constructor
  · intro text unit hu hp
    exact (metrics_one_iff text).mpr (Or.inl ⟨unit, hu, hp⟩)
  · decide

/-- Witness for C3: the general rule applied at a concrete text and unit. -/
theorem claim_number_unit_rule_witness : check_quantitative_metrics "5%" = 1 :=
  claim_number_unit_rule.1 "5%" "%" (by decide)
    ⟨[], ['5'], [], [], [], by decide, by decide, by decide, Or.inl rfl, by decide⟩

/-- C4: check_quantitative_metrics returns 1 whenever some KPI phrase
occurs at the start of the text or right after a newline, returns 0 when
no number-plus-unit pattern and no line-anchored KPI phrase occurs (a KPI
phrase only in mid-line running prose does not count), and the concrete
sample texts evaluate as the spec states. -/
theorem claim_kpi_heading_rule :
    (∀ text kw, kw ∈ kpi_keywords → LineAnchored kw.data text.data →
      check_quantitative_metrics text = 1) ∧
    (∀ text, (∀ u ∈ quantitative_units, ¬ NumUnitPattern u.data text.data) →
      (∀ kw ∈ kpi_keywords, ¬ LineAnchored kw.data text.data) →
      check_quantitative_metrics text = 0) ∧
    check_quantitative_metrics "KPI\n核心指标" = 1 ∧
    check_quantitative_metrics "报告 KPI 情况" = 0 ∧
    check_quantitative_metrics "no numbers or keywords here" = 0 := by
  refine ⟨?_, ?_, by decide, by decide, by decide⟩
  · intro text kw hk hp
    exact (metrics_one_iff text).mpr (Or.inr ⟨kw, hk, hp⟩)
  · intro text h1 h2
    refine (metrics_zero_iff text).mpr ?_
    rintro (⟨u, hu, hp⟩ | ⟨kw, hk, hp⟩)
    · exact h1 u hu hp
    · exact h2 kw hk hp

/-- Witness for C4: the heading rule applied at a concrete text and phrase. -/
theorem claim_kpi_heading_rule_witness : check_quantitative_metrics "KPI" = 1 :=
  claim_kpi_heading_rule.1 "KPI" "KPI" (by decide) (Or.inl ⟨[], by decide⟩)

/-- C9: the KPI heading rule matches case-sensitively, so a lowercase
variant of the KPI phrase at the start of a line with no number present
scores 0 while the exact-case phrase scores 1; by contrast the standards
check is case-insensitive on its Latin keywords. -/
theorem claim_kpi_case_sensitive :
    check_quantitative_metrics "kpi" = 0 ∧
    check_quantitative_metrics "KPI" = 1 ∧
    check_standards_compliance "gri" = 1 ∧
    check_standards_compliance "GRI" = 1 :=
  ⟨by decide, by decide, by decide, by decide⟩

theorem str_data_append (a b : String) : (a ++ b).data = a.data ++ b.data := by
  cases a with | mk la =>
  cases b with | mk lb =>
  rfl

theorem pyLower_data (s : String) : (pyLower s).data = s.data.map Char.toLower := rfl

theorem pyLower_data_append (a b : String) :
    (pyLower (a ++ b)).data = (pyLower a).data ++ (pyLower b).data := by
  rw [pyLower_data, pyLower_data, pyLower_data, str_data_append, List.map_append]

theorem keywordCheck_one_append (kws : List String) (text extra : String)
    (h : (if kws.any (fun kw => containsL (pyLower kw).data (pyLower text).data) then (1 : Nat)
        else 0) = 1) :
    (if kws.any (fun kw => containsL (pyLower kw).data (pyLower (text ++ extra)).data)
        then (1 : Nat) else 0) = 1 := by
  rcases (keywordCheckEq kws text).1.mp h with ⟨kw, hkw, p, q, heq⟩
  refine (keywordCheckEq kws (text ++ extra)).1.mpr
    ⟨kw, hkw, p, q ++ (pyLower extra).data, ?_⟩
  rw [pyLower_data_append, heq, List.append_assoc]

theorem check_std_one_mono (text extra : String) (h : check_standards_compliance text = 1) :
    check_standards_compliance (text ++ extra) = 1 :=
  keywordCheck_one_append standards_keywords text extra h

theorem check_assur_one_mono (text extra : String) (h : check_third_party_assurance text = 1) :
    check_third_party_assurance (text ++ extra) = 1 :=
  keywordCheck_one_append assurance_keywords text extra h

theorem numUnitPattern_append (unit s e : List Char) (h : NumUnitPattern unit s) :
    NumUnitPattern unit (s ++ e) := by
  rcases h with ⟨p, ds, fr, sp, u, rfl, hne, hds, hfr, hsp⟩
  exact ⟨p, ds, fr, sp, u ++ e, by simp [List.append_assoc], hne, hds, hfr, hsp⟩

theorem lineAnchored_append (kw s e : List Char) (h : LineAnchored kw s) :
    LineAnchored kw (s ++ e) := by
  rcases h with ⟨u, rfl⟩ | ⟨p, q, rfl⟩
  · exact Or.inl ⟨u ++ e, by rw [List.append_assoc]⟩
  · exact Or.inr ⟨p, q ++ e, by simp⟩

theorem check_metrics_one_mono (text extra : String)
    (h : check_quantitative_metrics text = 1) :
    check_quantitative_metrics (text ++ extra) = 1 := by
  rcases (metrics_one_iff text).mp h with ⟨u, hu, hp⟩ | ⟨kw, hkw, hp⟩
  · refine (metrics_one_iff _).mpr (Or.inl ⟨u, hu, ?_⟩)
    rw [str_data_append]
    exact numUnitPattern_append _ _ _ hp
  · refine (metrics_one_iff _).mpr (Or.inr ⟨kw, hkw, ?_⟩)
    rw [str_data_append]
    exact lineAnchored_append _ _ _ hp

/-- C8 (amended): each of the three checks returns only 0 or 1, and
scoring is monotonic under appending text at the end (in particular,
appending an occurrence of a matching keyword or pattern): extending the
text on the right never decreases any of the three scores.  Inserting
text at the start can decrease the metrics score, since it can unanchor
a KPI heading match (see the counterexample). -/
theorem claim_scores_binary_monotone (text extra : String) :
    (check_standards_compliance text = 0 ∨ check_standards_compliance text = 1) ∧
    (check_third_party_assurance text = 0 ∨ check_third_party_assurance text = 1) ∧
    (check_quantitative_metrics text = 0 ∨ check_quantitative_metrics text = 1) ∧
    check_standards_compliance text ≤ check_standards_compliance (text ++ extra) ∧
    check_third_party_assurance text ≤ check_third_party_assurance (text ++ extra) ∧
    check_quantitative_metrics text ≤ check_quantitative_metrics (text ++ extra) := by
  refine ⟨check_std_val text, check_assur_val text, check_metrics_val text, ?_, ?_, ?_⟩
  · rcases check_std_val text with h | h
    · simp [h]
    · simp [h, check_std_one_mono text extra h]
  · rcases check_assur_val text with h | h
    · simp [h]
    · simp [h, check_assur_one_mono text extra h]
  · rcases check_metrics_val text with h | h
    · simp [h]
    · simp [h, check_metrics_one_mono text extra h]

/-- Counterexample for C8 as stated: the metrics score of the sample KPI
text is 1, yet adding an occurrence of the matching standards keyword in
front of it (the standards check of the extended text confirms the added
keyword matches) drops the metrics score to 0, because the KPI phrase is
no longer at the start of a line. -/
theorem claim_scores_monotone_counterexample :
    check_quantitative_metrics "KPI" = 1 ∧
    check_standards_compliance "GRIKPI" = 1 ∧
    check_quantitative_metrics "GRIKPI" = 0 :=
  ⟨by decide, by decide, by decide⟩

theorem takeDigits_iff (k : Nat) :
    ∀ s d r, takeDigits k s = some (d, r) ↔ (s = d ++ r ∧ d.length = k ∧ AllDigits d) := by
  induction k with
  | zero =>
    intro s d r
    simp only [takeDigits, Option.some.injEq, Prod.mk.injEq]
    constructor
    · rintro ⟨rfl, rfl⟩
      exact ⟨rfl, rfl, allDigits_nil⟩
    · rintro ⟨heq, hlen, _⟩
      have hd0 : d = [] := List.length_eq_zero.mp hlen
      subst hd0
      exact ⟨rfl, by simpa using heq⟩
  | succ k ih =>
    intro s d r
    cases s with
    | nil =>
      simp only [takeDigits]
      constructor
      · intro h; exact Option.noConfusion h
      · rintro ⟨heq, hlen, _⟩
        rcases List.append_eq_nil.mp heq.symm with ⟨rfl, -⟩
        have h0 : (0 : Nat) = k + 1 := hlen
        omega
    | cons c s2 =>
      simp only [takeDigits]
      by_cases hc : isAsciiDigit c = true
      · rw [if_pos hc]
        constructor
        · intro h
          rcases Option.map_eq_some'.mp h with ⟨⟨d2, r2⟩, hp, hf⟩
          simp only [Prod.mk.injEq] at hf
          obtain ⟨hfd, hfr⟩ := hf
          subst hfd
          subst hfr
          rcases (ih s2 d2 r2).mp hp with ⟨heq, hlen, hds⟩
          refine ⟨by rw [heq]; rfl, by simp [hlen], ?_⟩
          intro x hx
          rcases List.mem_cons.mp hx with rfl | hx
          · exact hc
          · exact hds x hx
        · rintro ⟨heq, hlen, hd⟩
          cases d with
          | nil =>
            have h0 : (0 : Nat) = k + 1 := hlen
            omega
          | cons x d2 =>
            rw [List.cons_append] at heq
            injection heq with he1 he2
            subst he1
            refine Option.map_eq_some'.mpr ⟨(d2, r), ?_, rfl⟩
            exact (ih s2 d2 r).mpr
              ⟨he2, by simpa using hlen, fun y hy => hd y (List.mem_cons_of_mem _ hy)⟩
      · rw [if_neg hc]
        constructor
        · intro h; exact Option.noConfusion h
        · rintro ⟨heq, hlen, hd⟩
          cases d with
          | nil =>
            have h0 : (0 : Nat) = k + 1 := hlen
            omega
          | cons x d2 =>
            rw [List.cons_append] at heq
            injection heq with he1 he2
            subst he1
            exact absurd (hd c (List.mem_cons_self c d2)) hc

theorem expectDash_some (s r : List Char) : expectDash s = some r ↔ s = '-' :: r := by
  cases s with
  | nil =>
    simp only [expectDash]
    constructor
    · intro h; exact Option.noConfusion h
    · intro h; exact List.noConfusion h
  | cons c rest =>
    simp only [expectDash]
    by_cases hc : c = '-'
    · subst hc
      rw [if_pos rfl]
      constructor
      · intro h; injection h with h2; rw [h2]
      · intro h; injection h with h1 h2; rw [h2]
    · rw [if_neg hc]
      constructor
      · intro h; exact Option.noConfusion h
      · intro h; injection h with h1 h2; exact absurd h1 hc

theorem findNameTxt_sound :
    ∀ s n, findNameTxt s = some n → ∃ r, s = n ++ (txtSuffix ++ r) ∧ '\n' ∉ n := by
  intro s
  induction s with
  | nil => intro n h; exact Option.noConfusion h
  | cons c rest ih =>
    intro n h
    rw [findNameTxt] at h
    by_cases h1 : startsWithL (c :: rest) txtSuffix = true
    · rw [if_pos h1] at h
      injection h with h2
      subst h2
      rcases (startsWithL_iff txtSuffix (c :: rest)).mp h1 with ⟨u, hu⟩
      refine ⟨u, hu, ?_⟩
      intro hx; cases hx
    · rw [if_neg h1] at h
      by_cases h2 : c = '\n'
      · rw [if_pos h2] at h; exact Option.noConfusion h
      · rw [if_neg h2] at h
        rcases Option.map_eq_some'.mp h with ⟨n2, hn2, hf⟩
        subst hf
        rcases ih n2 hn2 with ⟨r, hr, hnl⟩
        refine ⟨r, by rw [hr]; rfl, ?_⟩
        intro hx
        rcases List.mem_cons.mp hx with h3 | h3
        · exact h2 h3.symm
        · exact hnl h3

theorem findNameTxt_complete :
    ∀ n r, '\n' ∉ n → ∃ m, findNameTxt (n ++ (txtSuffix ++ r)) = some m := by
  intro n
  induction n with
  | nil =>
    intro r _
    have hs : startsWithL ('.' :: 't' :: 'x' :: 't' :: r) txtSuffix = true :=
      (startsWithL_iff txtSuffix _).mpr ⟨r, rfl⟩
    refine ⟨[], ?_⟩
    show findNameTxt ('.' :: 't' :: 'x' :: 't' :: r) = some []
    rw [findNameTxt, if_pos hs]
  | cons c n2 ih =>
    intro r hnl
    have hc : ¬ c = '\n' := by intro hcc; subst hcc; exact hnl (List.mem_cons_self _ _)
    by_cases h1 : startsWithL (c :: (n2 ++ (txtSuffix ++ r))) txtSuffix = true
    · refine ⟨[], ?_⟩
      show findNameTxt (c :: (n2 ++ (txtSuffix ++ r))) = some []
      rw [findNameTxt, if_pos h1]
    · rcases ih r (fun hx => hnl (List.mem_cons_of_mem c hx)) with ⟨m, hm⟩
      refine ⟨c :: m, ?_⟩
      show findNameTxt (c :: (n2 ++ (txtSuffix ++ r))) = some (c :: m)
      rw [findNameTxt, if_neg h1, if_neg hc, hm]
      rfl

theorem findNameTxt_min :
    ∀ n r, '\n' ∉ n →
      (∀ i, i < n.length → startsWithL (List.drop i (n ++ (txtSuffix ++ r))) txtSuffix = false) →
      findNameTxt (n ++ (txtSuffix ++ r)) = some n := by
  intro n
  induction n with
  | nil =>
    intro r _ _
    have hs : startsWithL ('.' :: 't' :: 'x' :: 't' :: r) txtSuffix = true :=
      (startsWithL_iff txtSuffix _).mpr ⟨r, rfl⟩
    show findNameTxt ('.' :: 't' :: 'x' :: 't' :: r) = some []
    rw [findNameTxt, if_pos hs]
  | cons c n2 ih =>
    intro r hnl hmin
    have hc : ¬ c = '\n' := by intro hcc; subst hcc; exact hnl (List.mem_cons_self _ _)
    have h0 : startsWithL (c :: (n2 ++ (txtSuffix ++ r))) txtSuffix = false := by
      have h00 := hmin 0 (by simp)
      simpa using h00
    have h1 : ¬ startsWithL (c :: (n2 ++ (txtSuffix ++ r))) txtSuffix = true := by
      rw [h0]; exact Bool.false_ne_true
    have hmin2 : ∀ i, i < n2.length →
        startsWithL (List.drop i (n2 ++ (txtSuffix ++ r))) txtSuffix = false := by
      intro i hi
      have h3 := hmin (i + 1) (by simpa using Nat.succ_lt_succ hi)
      simpa [List.drop_succ_cons] using h3
    have hrec := ih r (fun hx => hnl (List.mem_cons_of_mem c hx)) hmin2
    show findNameTxt (c :: (n2 ++ (txtSuffix ++ r))) = some (c :: n2)
    rw [findNameTxt, if_neg h1, if_neg hc, hrec]
    rfl

theorem parse_some_iff (filename : String) :
    (∃ t, parse_filename filename = some t) ↔ ShapeAtFront filename := by
  constructor
  · rintro ⟨t, ht⟩
    cases h1 : takeDigits 6 filename.data with
    | none =>
      simp only [parse_filename, h1] at ht
      exact Option.noConfusion ht
    | some p1 =>
      obtain ⟨code, r1⟩ := p1
      cases h2 : expectDash r1 with
      | none =>
        simp only [parse_filename, h1, h2] at ht
        exact Option.noConfusion ht
      | some r2 =>
        cases h3 : takeDigits 4 r2 with
        | none =>
          simp only [parse_filename, h1, h2, h3] at ht
          exact Option.noConfusion ht
        | some p2 =>
          obtain ⟨yr, r3⟩ := p2
          cases h4 : expectDash r3 with
          | none =>
            simp only [parse_filename, h1, h2, h3, h4] at ht
            exact Option.noConfusion ht
          | some r4 =>
            cases h5 : findNameTxt r4 with
            | none =>
              simp only [parse_filename, h1, h2, h3, h4, h5] at ht
              exact Option.noConfusion ht
            | some nm =>
              rcases (takeDigits_iff 6 filename.data code r1).mp h1 with ⟨hd1, h6, hcd⟩
              have hr1 := (expectDash_some r1 r2).mp h2
              subst hr1
              rcases (takeDigits_iff 4 r2 yr r3).mp h3 with ⟨hd2, hy4, hyd⟩
              subst hd2
              have hr3 := (expectDash_some r3 r4).mp h4
              subst hr3
              rcases findNameTxt_sound r4 nm h5 with ⟨rest, hr4, hnl⟩
              subst hr4
              exact ⟨code, yr, nm, rest, hd1, h6, hcd, hy4, hyd, hnl⟩
  · rintro ⟨code, yr, nm, rest, heq, h6, hcd, h4, hyd, hnl⟩
    have h1 : takeDigits 6 filename.data =
        some (code, '-' :: (yr ++ '-' :: (nm ++ (txtSuffix ++ rest)))) :=
      (takeDigits_iff 6 _ _ _).mpr ⟨heq, h6, hcd⟩
    have h2 : expectDash ('-' :: (yr ++ '-' :: (nm ++ (txtSuffix ++ rest)))) =
        some (yr ++ '-' :: (nm ++ (txtSuffix ++ rest))) :=
      (expectDash_some _ _).mpr rfl
    have h3 : takeDigits 4 (yr ++ '-' :: (nm ++ (txtSuffix ++ rest))) =
        some (yr, '-' :: (nm ++ (txtSuffix ++ rest))) :=
      (takeDigits_iff 4 _ _ _).mpr ⟨rfl, h4, hyd⟩
    have h4d : expectDash ('-' :: (nm ++ (txtSuffix ++ rest))) =
        some (nm ++ (txtSuffix ++ rest)) :=
      (expectDash_some _ _).mpr rfl
    rcases findNameTxt_complete nm rest hnl with ⟨m, h5⟩
    exact ⟨(String.mk code, digitsToNat yr, String.mk m),
      by simp only [parse_filename, h1, h2, h3, h4d, h5]⟩

/-- Counterexample for C6 as stated: a filename that is not of the whole
shape (it does not end in the dot-txt suffix because extra characters
follow) is still parsed to a triple rather than to the all-absent
sentinel, since re.match only anchors the pattern at the start. -/
theorem claim_parse_filename_counterexample :
    parse_filename "600000-2020-A.txtEXTRA" = some ("600000", 2020, "A") := by decide

/-- C6 (amended): parse_filename parses the sample filename to code
600000, year 2020 and name SampleCorp, parses a filename with a missing
year to the all-absent sentinel, and returns the all-absent sentinel
exactly for filenames that do not begin with the shape of six digits, a
dash, four digits, a dash, then a newline-free name followed by the
dot-txt literal (characters may follow that literal). -/
theorem claim_parse_filename (filename : String) :
    parse_filename "600000-2020-SampleCorp.txt" = some ("600000", 2020, "SampleCorp") ∧
    parse_filename "600000-SampleCorp.txt" = none ∧
    (parse_filename filename = none ↔ ¬ ShapeAtFront filename) := by
  refine ⟨by decide, by decide, ?_⟩
  constructor
  · intro h hs
    rcases (parse_some_iff filename).mpr hs with ⟨t, ht⟩
    rw [h] at ht
    exact Option.noConfusion ht
  · intro hns
    cases hp : parse_filename filename with
    | none => rfl
    | some t => exact absurd ((parse_some_iff filename).mp ⟨t, hp⟩) hns

/-- C7: a document reaching the batch loop is scored only if its parsed
year lies in 2015-2023; every parsed document with an in-range year and
nonempty text is scored; an out-of-range parsed year is recorded as
filtered out with the year reason; among parsed years 2014, 2015, 2023
and 2024 exactly 2015 and 2023 pass the filter. -/
theorem claim_batch_year_filter :
    (∀ filename text row, process_file filename text = BatchOutcome.scored row →
      ∃ code y name, parse_filename filename = some (code, y, name) ∧ 2015 ≤ y ∧ y ≤ 2023) ∧
    (∀ filename text code y name, parse_filename filename = some (code, y, name) →
      2015 ≤ y → y ≤ 2023 → text ≠ "" →
      ∃ row, process_file filename text = BatchOutcome.scored row) ∧
    (∀ filename text code y name, parse_filename filename = some (code, y, name) →
      ¬(2015 ≤ y ∧ y ≤ 2023) → process_file filename text = BatchOutcome.failed year_reason) ∧
    process_file "600000-2014-A.txt" "GRI" = BatchOutcome.failed year_reason ∧
    (∃ row, process_file "600000-2015-A.txt" "GRI" = BatchOutcome.scored row) ∧
    (∃ row, process_file "600000-2023-A.txt" "GRI" = BatchOutcome.scored row) ∧
    process_file "600000-2024-A.txt" "GRI" = BatchOutcome.failed year_reason := by
  refine ⟨?_, ?_, ?_, by decide, ⟨⟨"600000", "A", 2015, 1, 0, 0, 1⟩, by decide⟩,
    ⟨⟨"600000", "A", 2023, 1, 0, 0, 1⟩, by decide⟩, by decide⟩
  · intro filename text row h
    cases hp : parse_filename filename with
    | none =>
      simp only [process_file, hp] at h
      exact BatchOutcome.noConfusion h
    | some t =>
      obtain ⟨code, y, name⟩ := t
      simp only [process_file, hp] at h
      by_cases hy : y ≠ 0 ∧ 2015 ≤ y ∧ y ≤ 2023
      · exact ⟨code, y, name, rfl, hy.2.1, hy.2.2⟩
      · rw [if_neg hy] at h
        exact BatchOutcome.noConfusion h
  · intro filename text code y name hp h15 h23 htext
    have hy0 : y ≠ 0 := by omega
    refine ⟨⟨code, name, y, check_standards_compliance text, check_third_party_assurance text,
      check_quantitative_metrics text,
      check_standards_compliance text + check_third_party_assurance text +
        check_quantitative_metrics text⟩, ?_⟩
    simp only [process_file, hp]
    rw [if_pos ⟨hy0, h15, h23⟩, analyze_report_eq text htext]
  · intro filename text code y name hp hr
    simp only [process_file, hp]
    rw [if_neg (fun hc => hr ⟨hc.2.1, hc.2.2⟩)]

/-- Witness for C7: the sufficiency part applied at a concrete filename
and text. -/
theorem claim_batch_year_filter_witness :
    ∃ row, process_file "600000-2020-B.txt" "GRI" = BatchOutcome.scored row :=
  claim_batch_year_filter.2.1 "600000-2020-B.txt" "GRI" "600000" 2020 "B"
    (by decide) (by decide) (by decide) (by decide)

/-- Counterexample for C10 as stated: this filename begins with six
digits, a dash, four digits, a dash, and characters followed by the
dot-txt literal, yet parse_filename returns the all-absent sentinel,
because the span before the literal contains a newline, which the regex
dot class never matches. -/
theorem claim_parse_filename_lazy_counterexample :
    parse_filename "600000-2020-a\nb.txt" = none := by decide

/-- C10 (amended): the filename pattern is not anchored at the end: for
every filename beginning with six digits, a dash, four digits, a dash,
then a newline-free span followed by the dot-txt literal, parse_filename
returns the parsed triple even when arbitrary characters follow the
literal, with the name captured as the shortest such span before the
first occurrence of the literal. -/
theorem claim_parse_filename_lazy (filename : String) (code yr nm rest : List Char)
    (hdata : filename.data = code ++ '-' :: (yr ++ '-' :: (nm ++ (txtSuffix ++ rest))))
    (hc6 : code.length = 6) (hcd : AllDigits code)
    (hy4 : yr.length = 4) (hyd : AllDigits yr)
    (hnl : '\n' ∉ nm)
    (hmin : ∀ i, i < nm.length →
      startsWithL (List.drop i (nm ++ (txtSuffix ++ rest))) txtSuffix = false) :
    parse_filename filename = some (String.mk code, digitsToNat yr, String.mk nm) := by
  have h1 : takeDigits 6 filename.data =
      some (code, '-' :: (yr ++ '-' :: (nm ++ (txtSuffix ++ rest)))) :=
    (takeDigits_iff 6 _ _ _).mpr ⟨hdata, hc6, hcd⟩
  have h2 : expectDash ('-' :: (yr ++ '-' :: (nm ++ (txtSuffix ++ rest)))) =
      some (yr ++ '-' :: (nm ++ (txtSuffix ++ rest))) :=
    (expectDash_some _ _).mpr rfl
  have h3 : takeDigits 4 (yr ++ '-' :: (nm ++ (txtSuffix ++ rest))) =
      some (yr, '-' :: (nm ++ (txtSuffix ++ rest))) :=
    (takeDigits_iff 4 _ _ _).mpr ⟨rfl, hy4, hyd⟩
  have h4 : expectDash ('-' :: (nm ++ (txtSuffix ++ rest))) =
      some (nm ++ (txtSuffix ++ rest)) :=
    (expectDash_some _ _).mpr rfl
  have h5 : findNameTxt (nm ++ (txtSuffix ++ rest)) = some nm :=
    findNameTxt_min nm rest hnl hmin
  simp only [parse_filename, h1, h2, h3, h4, h5]

/-- Witness for C10: the amended rule applied at a concrete filename with
trailing characters after the dot-txt literal. -/
theorem claim_parse_filename_lazy_witness :
    parse_filename "123456-2021-Ab.txtZ" = some ("123456", 2021, "Ab") :=
  (claim_parse_filename_lazy "123456-2021-Ab.txtZ"
    ['1', '2', '3', '4', '5', '6'] ['2', '0', '2', '1'] ['A', 'b'] ['Z']
    (by decide) (by decide) (by decide) (by decide) (by decide) (by decide)
    (by decide)).trans (by decide)

